import Mathlib

/-!
Formal model of the `go-datastore` repository.

This file gives a shallow embedding of three subsystems of the repository:

* the delimiter-bounded prefix trie (`src/engine/PrefixTrie.go`),
* the storage engine (`src/engine/DataStore.go`, with `ReadExpiration`
  taken from the engine revision kept alongside it),
* the wire codec (`src/wire/WireProtocol.go`) and the server's
  `sendErrorResponse` (`src/server/Server.go`),

followed by theorems settling the behavioural claims about these
subsystems.

Modelling conventions:

* Go strings are byte sequences; keys and values are modelled as `List Char`
  (the separator `':'` is a single ASCII byte, so splitting on it agrees
  byte-wise and character-wise).  On the wire, Go strings and byte slices
  are modelled as `List Nat` of byte values.
* `time.Time` is modelled as a `Nat` of unix milliseconds; the zero time is
  `0` and `t.Before(u)` is `t < u`.  Each engine operation that calls
  `time.Now()` receives the current time as an explicit `now` argument.
* Go's `map[string]*trieNode` in the trie is keyed by the child's `value`
  field: `Add` only ever inserts a child under its own `value`, values are
  never mutated, and `deleteKey`/`deleteBranch` delete by `childNode.value`,
  so children are modelled as a list of nodes looked up by `value`.  The
  difference between a nil Go map and an allocated empty map is observable
  (`node.leaves == nil` checks) and is modelled by `NodeMap.nilMap` versus
  `NodeMap.mkMap NodeList.nil`.
* `go ds.cleanupExpirations()` launches a detached goroutine; it is modelled
  as a separate transition (`Engine.cleanupExpirations`) that may be
  interleaved between operations, not as part of the mutating call itself.
* Fallible Go functions returning `error` are modelled with `Option`.
-/

/-! ## Strings and the `":"` separator -/

abbrev Str := List Char

namespace Engine

/-- `strings.Split(s, ":")`: split a string at every `':'`.  Always returns
at least one (possibly empty) component. -/
def splitColon : Str → List Str
  | [] => [[]]
  | c :: rest =>
      if c = ':' then [] :: splitColon rest
      else
        match splitColon rest with
        | [] => [[c]]
        | s :: ss => (c :: s) :: ss

/-- Rejoin the tail components of a split, each preceded by `':'`. -/
def joinTail : List Str → Str
  | [] => []
  | c :: cs => ':' :: (c ++ joinTail cs)

/-- The cumulative value built by the `strings.Builder` in `Add`/`Find`:
the first component is written bare, later ones are preceded by `":"`. -/
def mkAcc : Option Str → Str → Str
  | none, c => c
  | some a, c => a ++ ':' :: c

/-! ## The prefix trie (`src/engine/PrefixTrie.go`) -/

mutual
/-- `trieNode`: `value` is the cumulative prefix the node represents,
`isKey` marks externally inserted keys, `leaves` is the child map. -/
inductive TrieNode where
  | mk (value : Str) (isKey : Bool) (leaves : NodeMap)

/-- A Go `map[string]*trieNode` field: either the nil map or an allocated
map holding the children. -/
inductive NodeMap where
  | nilMap : NodeMap
  | mkMap (children : NodeList) : NodeMap

/-- The entries of an allocated child map, keyed by the child's `value`. -/
inductive NodeList where
  | nil : NodeList
  | cons (child : TrieNode) (rest : NodeList) : NodeList
end

def TrieNode.value : TrieNode → Str
  | .mk v _ _ => v

def TrieNode.isKey : TrieNode → Bool
  | .mk _ k _ => k

def TrieNode.leaves : TrieNode → NodeMap
  | .mk _ _ lv => lv

/-- Reading `node.leaves` for iteration/lookup: the nil map behaves as an
empty collection. -/
def childrenOf : NodeMap → NodeList
  | .nilMap => .nil
  | .mkMap l => l

/-- `m[s]` on the child map: first entry whose value (= map key) is `s`. -/
def lookupChild : NodeList → Str → Option TrieNode
  | .nil, _ => none
  | .cons c rest, s => if c.value = s then some c else lookupChild rest s

/-- Map insertion of a fresh child (key not present). -/
def appendChild : NodeList → TrieNode → NodeList
  | .nil, c => .cons c .nil
  | .cons c0 rest, c => .cons c0 (appendChild rest c)

/-- Map update of the child stored under value `s`. -/
def replaceChild : NodeList → Str → TrieNode → NodeList
  | .nil, _, _ => .nil
  | .cons c0 rest, s, c =>
      if c0.value = s then .cons c rest else .cons c0 (replaceChild rest s c)

/-- `PrefixTrie`: root node plus the configured separator (always `":"`,
as produced by `NewPrefixTrie`; `Add` and `Find` write the literal `":"`
into the cumulative value). -/
structure PrefixTrie where
  root : TrieNode
  seperator : Str

/-- `NewPrefixTrie()`. -/
def trieNew : PrefixTrie := ⟨.mk [] false .nilMap, [':']⟩

/-- The loop body of `PrefixTrie.Add`: walk/create one child per component,
carrying the cumulative value; after the last component mark the current
node as a key. -/
def addGo : TrieNode → List Str → Option Str → TrieNode
  | n, [], _ => .mk n.value true n.leaves
  | n, c :: rest, accPre =>
      let acc := mkAcc accPre c
      match lookupChild (childrenOf n.leaves) acc with
      | none =>
          let child := addGo (.mk acc false .nilMap) rest (some acc)
          .mk n.value n.isKey (.mkMap (appendChild (childrenOf n.leaves) child))
      | some child =>
          let child2 := addGo child rest (some acc)
          .mk n.value n.isKey (.mkMap (replaceChild (childrenOf n.leaves) acc child2))

/-- `PrefixTrie.Add`. -/
def trieAdd (t : PrefixTrie) (key : Str) : PrefixTrie :=
  { t with root := addGo t.root (splitColon key) none }

mutual
/-- `PrefixTrie.findKeys` on a non-nil node: a node with a nil child map
contributes its value; otherwise it contributes its value if `isKey` and
recurses into every child. -/
def findKeys : TrieNode → List Str
  | .mk v _ .nilMap => [v]
  | .mk v k (.mkMap l) => (if k then [v] else []) ++ findKeysList l

def findKeysList : NodeList → List Str
  | .nil => []
  | .cons c rest => findKeys c ++ findKeysList rest
end

/-- The walking loop of `PrefixTrie.Find`: descend one child per component
of the query; a missing child aborts with `none` (Go sets `currentNode =
nil` and breaks). -/
def findLoop : TrieNode → List Str → Option Str → Option TrieNode
  | n, [], _ => some n
  | n, c :: rest, accPre =>
      let acc := mkAcc accPre c
      match lookupChild (childrenOf n.leaves) acc with
      | none => none
      | some child => findLoop child rest (some acc)

/-- `findKeys` applied to a possibly-nil node pointer: the nil node yields
the empty list. -/
def findKeysOpt : Option TrieNode → List Str
  | none => []
  | some m => findKeys m

/-- `PrefixTrie.Find`. -/
def trieFind (t : PrefixTrie) (q : Str) : List Str :=
  if q = [] then findKeys t.root
  else findKeysOpt (findLoop t.root (splitColon q) none)

def setKeyFalse : TrieNode → TrieNode
  | .mk v _ lv => .mk v false lv

mutual
/-- `PrefixTrie.deleteKey`.  Returns (visited-a-matching-node,
anything-deleted, updated node).  A node whose value matches returns
immediately; otherwise all children are processed: a matching child with a
nil child map is removed from the map, a matching child with children has
`isKey` cleared; finally a node with a nil child map and no key asks its
parent to delete it. -/
def delKey : TrieNode → Str → Bool × Bool × TrieNode
  | .mk v k lv, key =>
      if v = key then (true, k, .mk v k lv)
      else
        match lv with
        | .nilMap => (!k, false, .mk v k .nilMap)
        | .mkMap l =>
            let r := delKeyList l key
            (false, r.1, .mk v k (.mkMap r.2))

def delKeyList : NodeList → Str → Bool × NodeList
  | .nil, _ => (false, .nil)
  | .cons c rest, key =>
      let rc := delKey c key
      let rr := delKeyList rest key
      let anything := rc.2.1 || rr.1
      if rc.1 then
        match (rc.2.2).leaves with
        | .nilMap => (anything, rr.2)
        | .mkMap _ => (anything, .cons (setKeyFalse rc.2.2) rr.2)
      else (anything, .cons rc.2.2 rr.2)
end

/-- `PrefixTrie.Delete`: run `deleteKey` from the root, report whether a
key node was deleted. -/
def trieDelete (t : PrefixTrie) (key : Str) : PrefixTrie × Bool :=
  let r := delKey t.root key
  ({ t with root := r.2.2 }, r.2.1)

mutual
/-- `PrefixTrie.deleteBranch`: find the child whose value equals the query
and drop its whole subtree (`break` stops after the first removal on each
level). -/
def delBranch : TrieNode → Str → Bool × Bool × TrieNode
  | .mk v k lv, p =>
      if v = p then (true, true, .mk v k lv)
      else
        match lv with
        | .nilMap => (false, false, .mk v k .nilMap)
        | .mkMap l =>
            let r := delBranchList l p
            (false, r.1, .mk v k (.mkMap r.2))

def delBranchList : NodeList → Str → Bool × NodeList
  | .nil, _ => (false, .nil)
  | .cons c rest, p =>
      let rc := delBranch c p
      if rc.1 then (rc.2.1, rest)
      else
        let rr := delBranchList rest p
        (rc.2.1 || rr.1, .cons rc.2.2 rr.2)
end

/-- `PrefixTrie.DeleteAll`: if the root itself matched, the whole tree
below the root is replaced by an allocated empty map. -/
def trieDeleteAll (t : PrefixTrie) (p : Str) : PrefixTrie × Bool :=
  let r := delBranch t.root p
  if r.1 then ({ t with root := .mk t.root.value t.root.isKey (.mkMap .nil) }, r.2.1)
  else ({ t with root := r.2.2 }, r.2.1)

/-! ### Derived notions about tries used to state the claims -/

mutual
/-- Some node in the subtree (the node itself included) is marked `isKey`
and carries value `k`. -/
def keyIn (k : Str) : TrieNode → Prop
  | .mk v key lv => (key = true ∧ v = k) ∨ keyInMap k lv

def keyInMap (k : Str) : NodeMap → Prop
  | .nilMap => False
  | .mkMap l => keyInList k l

def keyInList (k : Str) : NodeList → Prop
  | .nil => False
  | .cons c rest => keyIn k c ∨ keyInList k rest
end

/-- Membership of a node in a child list. -/
def inList (c : TrieNode) : NodeList → Prop
  | .nil => False
  | .cons c0 rest => c = c0 ∨ inList c rest

mutual
/-- Some node in the subtree is marked `isKey`. -/
def hasKeyNode : TrieNode → Bool
  | .mk _ k lv => k || hasKeyMap lv

def hasKeyMap : NodeMap → Bool
  | .nilMap => false
  | .mkMap l => hasKeyList l

def hasKeyList : NodeList → Bool
  | .nil => false
  | .cons c rest => hasKeyNode c || hasKeyList rest
end

mutual
/-- Every child subtree contains at least one key-bearing node
(recursively): the "no orphan prefixes" invariant I3 plus the pruning
guarantee of `Delete`'s documentation. -/
def noOrphanNode : TrieNode → Bool
  | .mk _ _ lv => noOrphanMap lv

def noOrphanMap : NodeMap → Bool
  | .nilMap => true
  | .mkMap l => noOrphanList l

def noOrphanList : NodeList → Bool
  | .nil => true
  | .cons c rest => (hasKeyNode c && noOrphanNode c) && noOrphanList rest
end

/-- The shape of a child value below a node: the parent's cumulative value
extended by one colon-free component (for root children, the bare
component). -/
def childShape (pv : Option Str) (w : Str) : Prop :=
  ∃ comp : Str, (∀ x ∈ comp, x ≠ ':') ∧ w = mkAcc pv comp

mutual
/-- Structural invariant of reachable (non-root) trie nodes: a node whose
child map was never allocated is a key node, and children are well-shaped,
have no duplicate values, and satisfy the invariant recursively. -/
def nodeInv : TrieNode → Prop
  | .mk _ k .nilMap => k = true
  | .mk v _ (.mkMap l) => listInv (some v) l

def listInv (pv : Option Str) : NodeList → Prop
  | .nil => True
  | .cons c rest =>
      childShape pv c.value ∧ nodeInv c ∧ lookupChild rest c.value = none ∧
        listInv pv rest
end

/-- The node invariant without the "unallocated child map implies key"
clause; the fresh intermediate nodes `Add` creates satisfy it before their
subtree is finished. -/
def preInv : TrieNode → Prop
  | .mk _ _ .nilMap => True
  | .mk v _ (.mkMap l) => listInv (some v) l

/-- Structural invariant of reachable tries: root value `""`, root never a
key, and well-formed children. -/
def trieInv (t : PrefixTrie) : Prop :=
  t.root.value = [] ∧ t.root.isKey = false ∧
    (match t.root.leaves with
     | .nilMap => True
     | .mkMap l => listInv none l)

/-- A trie operation: `Add` or `Delete`. -/
inductive TrieOp where
  | add (k : Str)
  | del (k : Str)

/-- Run a sequence of `Add`/`Delete` operations from the empty trie. -/
def runOps (ops : List TrieOp) : PrefixTrie :=
  ops.foldl
    (fun t op =>
      match op with
      | .add k => trieAdd t k
      | .del k => (trieDelete t k).1)
    trieNew

/-! ## The storage engine (`src/engine/DataStore.go`) -/

/-- The per-key record stored by the engine. -/
structure dataNode where
  value : Str
  hasExpiration : Bool
  expiration : Nat
deriving DecidableEq

/-- The Go zero value of `dataNode`, produced by reading a missing map key. -/
def zeroDataNode : dataNode := ⟨[], false, 0⟩

/-- The engine's `map[string]dataNode`, modelled as an association list
(`Count` needs the map's cardinality). -/
abbrev StoreMap := List (Str × dataNode)

def mapLookup : StoreMap → Str → Option dataNode
  | [], _ => none
  | (k0, d0) :: rest, k => if k0 = k then some d0 else mapLookup rest k

/-- Go `m[k] = d`: replace the existing entry or append a new one. -/
def mapInsert : StoreMap → Str → dataNode → StoreMap
  | [], k, d => [(k, d)]
  | (k0, d0) :: rest, k, d =>
      if k0 = k then (k, d) :: rest else (k0, d0) :: mapInsert rest k d

/-- Go `delete(m, k)`. -/
def mapRemove : StoreMap → Str → StoreMap
  | [], _ => []
  | (k0, d0) :: rest, k =>
      if k0 = k then mapRemove rest k else (k0, d0) :: mapRemove rest k

/-- The `DataStore` state: keyed map plus the trie index (the mutex
serialises operations and has no functional content). -/
structure DataStore where
  inMemoryStore : StoreMap
  keyIndex : PrefixTrie

/-- `NewDataStore()`. -/
def newDataStore : DataStore := ⟨[], trieNew⟩

/-- `DataStore.Read`: a missing key yields the zero `dataNode` and
`present = false`; an entry whose expiration is strictly before `now` is
reported absent as `("", zero time, false)`. -/
def Read (s : DataStore) (k : Str) (now : Nat) : Str × Nat × Bool :=
  match mapLookup s.inMemoryStore k with
  | none =>
      if zeroDataNode.hasExpiration ∧ zeroDataNode.expiration < now then ([], 0, false)
      else (zeroDataNode.value, zeroDataNode.expiration, false)
  | some d =>
      if d.hasExpiration ∧ d.expiration < now then ([], 0, false)
      else (d.value, d.expiration, true)

/-- `DataStore.ReadExpiration` (engine revision kept with the store):
absent or expired keys yield `(zero time, false)`; otherwise the stored
expiration and the `hasExpiration` flag. -/
def ReadExpiration (s : DataStore) (k : Str) (now : Nat) : Nat × Bool :=
  match mapLookup s.inMemoryStore k with
  | none => (0, false)
  | some d =>
      if d.hasExpiration ∧ d.expiration < now then (0, false)
      else (d.expiration, d.hasExpiration)

/-- `DataStore.Present`. -/
def Present (s : DataStore) (k : Str) (now : Nat) : Bool :=
  (Read s k now).2.2

/-- `DataStore.Insert` (the `go ds.cleanupExpirations()` it launches is the
separate transition `cleanupExpirations`): only writes when the key reads
as absent, storing a `dataNode` with only the value set. -/
def Insert (s : DataStore) (k v : Str) (now : Nat) : DataStore × Str × Bool :=
  let r := Read s k now
  if r.2.2 = false then
    (⟨mapInsert s.inMemoryStore k { zeroDataNode with value := v },
      trieAdd s.keyIndex k⟩, v, true)
  else (s, r.1, false)

/-- `DataStore.Update`: overwrites the whole `dataNode` when the key is
present, leaving the trie untouched. -/
def Update (s : DataStore) (k v : Str) (now : Nat) : DataStore × Str × Bool :=
  if Present s k now then
    ({ s with inMemoryStore := mapInsert s.inMemoryStore k { zeroDataNode with value := v } },
     v, true)
  else (s, [], false)

/-- `DataStore.Upsert`: unconditionally overwrites the whole `dataNode`
and re-adds the key to the trie. -/
def Upsert (s : DataStore) (k v : Str) : DataStore × Str :=
  (⟨mapInsert s.inMemoryStore k { zeroDataNode with value := v },
    trieAdd s.keyIndex k⟩, v)

/-- `DataStore.Delete`. -/
def Delete (s : DataStore) (k : Str) (now : Nat) : DataStore × Bool :=
  let valueExists := Present s k now
  (⟨mapRemove s.inMemoryStore k, (trieDelete s.keyIndex k).1⟩, valueExists)

/-- `DataStore.Count`: raw map size. -/
def Count (s : DataStore) : Nat := s.inMemoryStore.length

/-- `DataStore.Truncate`: replaces the map with a fresh empty map; the
trie field is not touched. -/
def Truncate (s : DataStore) : DataStore := { s with inMemoryStore := [] }

/-- `DataStore.Expire`: if present, re-reads the entry (Go zero value if
racing) and attaches the expiration. -/
def Expire (s : DataStore) (k : Str) (t : Nat) (now : Nat) : DataStore × Bool :=
  if Present s k now then
    let d := (mapLookup s.inMemoryStore k).getD zeroDataNode
    ({ s with inMemoryStore :=
        mapInsert s.inMemoryStore k { d with hasExpiration := true, expiration := t } }, true)
  else (s, false)

/-- `DataStore.KeysBy`: trie enumeration filtered through `Present`. -/
def KeysBy (s : DataStore) (p : Str) (now : Nat) : List Str :=
  (trieFind s.keyIndex p).filter (fun k => Present s k now)

/-- `DataStore.DeleteBy` (engine revision): the removal set and the
returned count come from the unfiltered trie enumeration. -/
def DeleteBy (s : DataStore) (p : Str) : DataStore × Nat :=
  let keysToRemove := trieFind s.keyIndex p
  (⟨keysToRemove.foldl (fun m k => mapRemove m k) s.inMemoryStore,
    (trieDeleteAll s.keyIndex p).1⟩, keysToRemove.length)

/-- `DataStore.cleanupExpirations`, the body of the goroutine launched by
the mutators: drop every expired entry from the map and the trie. -/
def cleanupExpirations (s : DataStore) (now : Nat) : DataStore :=
  s.inMemoryStore.foldl
    (fun acc e =>
      if e.2.hasExpiration ∧ e.2.expiration < now then
        ⟨mapRemove acc.inMemoryStore e.1, (trieDelete acc.keyIndex e.1).1⟩
      else acc)
    s

end Engine

/-! ## The wire codec (`src/wire/WireProtocol.go`)

Byte slices and Go strings on the wire are modelled as `List Nat` of byte
values.  `binary.LittleEndian.PutUint32(b, uint32(n))` truncates `n`
modulo `2^32` before serialising. -/

namespace Wire

/-- `messageSeparatorBinary = byte(0x7C)`. -/
def sepByte : Nat := 0x7C

/-- `binary.LittleEndian.PutUint32(_, uint32(n))`: four little-endian
bytes of `n % 2^32`. -/
def putLE32 (n : Nat) : List Nat :=
  [n % 256, n / 256 % 256, n / 256 ^ 2 % 256, n / 256 ^ 3 % 256]

/-- `binary.LittleEndian.Uint32` of four bytes. -/
def getLE32 (b0 b1 b2 b3 : Nat) : Nat :=
  b0 + 256 * b1 + 256 ^ 2 * b2 + 256 ^ 3 * b3

/-- ASCII bytes of a command token. -/
def ascii (s : String) : List Nat := s.toList.map Char.toNat

/-- The command tokens accepted by `DecipherCommand`. -/
def commandSet : List (List Nat) :=
  [ascii "READ", ascii "READEXPIRATION", ascii "INSERT", ascii "UPDATE",
   ascii "UPSERT", ascii "DELETE", ascii "PRESENT", ascii "EXPIRE",
   ascii "TRUNCATE", ascii "COUNT", ascii "KEYSBY", ascii "DELETEBY",
   ascii "EXPIREBY", ascii "ACK", ascii "NULL", ascii "ERR"]

/-- The per-parameter encoding step of `EncodeMessage`'s loop: separator,
4-byte length, separator, parameter bytes, in request order. -/
def argsEnc : List (List Nat) → List Nat
  | [] => []
  | p :: ps => (sepByte :: putLE32 p.length ++ sepByte :: p) ++ argsEnc ps

/-- `Protocol.EncodeMessage`: body = separator, command, encoded
parameters; the frame prepends the 4-byte little-endian total length
(body plus the four length bytes themselves). -/
def encodeMessage (cmd : List Nat) (params : List (List Nat)) : List Nat :=
  let message := sepByte :: cmd ++ argsEnc params
  putLE32 (message.length + 4) ++ message

/-- `Protocol.DecipherCommand`: bytes from index 5 up to the next
separator form the command, which must be in the command set (`error`
modelled as `none`). -/
def decipherCommand (request : List Nat) : Option (List Nat) :=
  let commandBytes := (request.drop 5).takeWhile (fun b => b ≠ sepByte)
  if commandBytes ∈ commandSet then some commandBytes else none

/-- The argument loop of `Protocol.decodeCommand`: while the cursor sits
on a separator, read a 4-byte length, skip the following separator, take
that many bytes, and advance; the cursor must land exactly on the end of
the frame. -/
def decodeArgs (msg : List Nat) (offset : Nat) : Option (List (List Nat)) :=
  if _h : offset < msg.length ∧ msg.getD offset 0 = sepByte then
    if offset + 5 > msg.length then none
    else
      let argSize := getLE32 (msg.getD (offset + 1) 0) (msg.getD (offset + 2) 0)
        (msg.getD (offset + 3) 0) (msg.getD (offset + 4) 0)
      let argEnd := offset + 6 + argSize
      if argEnd > msg.length then none
      else
        match decodeArgs msg argEnd with
        | none => none
        | some rest => some (((msg.drop (offset + 6)).take argSize) :: rest)
  else if offset = msg.length then some [] else none
termination_by msg.length - offset
decreasing_by omega

/-- `Protocol.decodeCommand`: arguments start after the 5 framing bytes
and the command token. -/
def decodeCommand (cmd : List Nat) (msg : List Nat) : Option (List (List Nat)) :=
  decodeArgs msg (5 + cmd.length)

/-- `Protocol.EncodeErrResponse`: `ERR`, separator, message length,
separator, message bytes, with total length and leading separator
prepended. -/
def encodeErrResponse (errMsg : List Nat) : List Nat :=
  let message := ascii "ERR" ++ sepByte :: putLE32 errMsg.length ++ sepByte :: errMsg
  putLE32 (message.length + 5) ++ sepByte :: message

/-- The embedded little-endian u32 length field of a frame. -/
def lengthField (frame : List Nat) : Nat :=
  getLE32 (frame.getD 0 0) (frame.getD 1 0) (frame.getD 2 0) (frame.getD 3 0)

end Wire

/-! ## `Server.sendErrorResponse` (`src/server/Server.go`)

```
func (s *Server) sendErrorResponse(connection net.Conn, err error) {
    _, writeErr := connection.Write(s.wire.EncodeErrResponse(err))
    fmt.Println(writeErr.Error())
}
```

The network write is modelled as an oracle: `writeErr` is the error value
the connection's `Write` returns, `none` standing for Go's `nil` error
(the write succeeded).  Invoking the `Error()` method on a nil error is a
nil dereference, modelled as `Except.error`. -/

namespace Server

/-- `err.Error()` on a Go `error` value: a nil error panics. -/
def goErrorCall : Option (List Nat) → Except Unit (List Nat)
  | none => .error ()
  | some e => .ok e

/-- `sendErrorResponse`: the frame written to the connection, and the
outcome of the unconditional `writeErr.Error()` call. -/
def sendErrorResponse (errMsg : List Nat) (writeErr : Option (List Nat)) :
    List Nat × Except Unit (List Nat) :=
  (Wire.encodeErrResponse errMsg, goErrorCall writeErr)

end Server

/-! ## Lemmas about splitting on the separator -/

namespace Engine

theorem splitColon_ne_nil (s : Str) : splitColon s ≠ [] := by
  cases s with
  | nil => simp [splitColon]
  | cons c rest =>
      simp only [splitColon]
      split
      · simp
      · split <;> simp

theorem splitColon_colonFree (s : Str) :
    ∀ c ∈ splitColon s, ∀ x ∈ c, x ≠ ':' := by
  induction s with
  | nil => simp [splitColon]
  | cons c rest ih =>
      simp only [splitColon]
      split
      · intro a ha
        rcases List.mem_cons.mp ha with h | h
        · subst h; simp
        · exact ih a h
      · rename_i hc
        cases hss : splitColon rest with
        | nil => exact absurd hss (splitColon_ne_nil rest)
        | cons s ss =>
            intro a ha
            rcases List.mem_cons.mp ha with h | h
            · subst h
              intro x hx
              rcases List.mem_cons.mp hx with h | h
              · subst h; exact hc
              · exact ih s (by rw [hss]; exact List.mem_cons_self s ss) x h
            · exact ih a (by rw [hss]; exact List.mem_cons_of_mem s h)

theorem splitColon_join (s : Str) :
    ∀ c cs, splitColon s = c :: cs → s = c ++ joinTail cs := by
  induction s with
  | nil =>
      intro c cs h
      simp only [splitColon, List.cons.injEq] at h
      obtain ⟨h1, h2⟩ := h
      subst h1; subst h2
      simp [joinTail]
  | cons x rest ih =>
      intro c cs h
      simp only [splitColon] at h
      split at h
      · rename_i hx
        obtain ⟨h1, h2⟩ := List.cons.injEq _ _ _ _ ▸ h
        subst h1
        subst hx
        cases h1 : splitColon rest with
        | nil => exact absurd h1 (splitColon_ne_nil rest)
        | cons s ss =>
            have := ih s ss h1
            rw [h1] at h2
            subst h2
            simp [joinTail, this]
      · cases h1 : splitColon rest with
        | nil => exact absurd h1 (splitColon_ne_nil rest)
        | cons s ss =>
            rw [h1] at h
            obtain ⟨h2, h3⟩ := List.cons.injEq _ _ _ _ ▸ h
            subst h3
            have := ih s ss h1
            simp [← h2, this]

/-! ## Lemmas about the engine's keyed map -/

theorem mapLookup_nil (k : Str) : mapLookup [] k = none := rfl

theorem mapLookup_mapInsert_self (m : StoreMap) (k : Str) (d : dataNode) :
    mapLookup (mapInsert m k d) k = some d := by
  induction m with
  | nil => simp [mapInsert, mapLookup]
  | cons e rest ih =>
      obtain ⟨k0, d0⟩ := e
      by_cases h : k0 = k
      · simp [mapInsert, h, mapLookup]
      · simp [mapInsert, h, mapLookup, ih]

theorem mapLookup_mapRemove (m : StoreMap) (k x : Str) :
    mapLookup (mapRemove m k) x = if x = k then none else mapLookup m x := by
  induction m with
  | nil => simp [mapRemove, mapLookup]
  | cons e rest ih =>
      obtain ⟨k0, d0⟩ := e
      by_cases hk : k0 = k
      · subst hk
        rw [show mapRemove ((k0, d0) :: rest) k0 = mapRemove rest k0 by
          simp [mapRemove], ih]
        by_cases hx : x = k0
        · simp [hx]
        · have h2 : ¬(k0 = x) := fun h => hx h.symm
          simp [hx, mapLookup, if_neg h2]
      · rw [show mapRemove ((k0, d0) :: rest) k = (k0, d0) :: mapRemove rest k by
          simp [mapRemove, hk]]
        by_cases h0 : k0 = x
        · subst h0
          have hxk : ¬(k0 = k) := hk
          simp [mapLookup, hxk]
        · simp [mapLookup, h0, ih]

theorem mapLookup_removeAll (ks : List Str) (m : StoreMap) (x : Str) :
    mapLookup (ks.foldl (fun m k => mapRemove m k) m) x =
      if x ∈ ks then none else mapLookup m x := by
  induction ks generalizing m with
  | nil => simp
  | cons k ks ih =>
      simp only [List.foldl_cons, ih, mapLookup_mapRemove]
      by_cases h1 : x ∈ ks <;> by_cases h2 : x = k <;>
        simp [h1, h2, List.mem_cons]

/-- Reading any key from a store with an empty map reports it absent. -/
theorem Read_empty_map (s : DataStore) (hs : s.inMemoryStore = [])
    (k : Str) (now : Nat) : Read s k now = ([], 0, false) := by
  simp [Engine.Read, hs, mapLookup, zeroDataNode]

end Engine

open Engine Wire Server

/-! ## Claim C1 -/

/-- C1: the claim states that `Update`/`Upsert` on a present key with a
live expiration preserve the stored expiration.  The code overwrites the
whole `dataNode` with `dataNode{value: value}`, so both calls clear the
expiration, contradicting the repository's own test
`TestUpdateAndUpsertDoNotRemoveExpirations`.  Evaluated at the failing
input: insert `"k"`, expire it at 100 (live at time 0), then update or
upsert; `ReadExpiration` afterwards returns `(zero, false)` instead of
`(100, true)`. -/
theorem c1_update_upsert_clear_live_expiration :
    ReadExpiration ((Expire (Insert newDataStore ['k'] ['a'] 0).1 ['k'] 100 0).1)
        ['k'] 0 = (100, true) ∧
    ReadExpiration
        (Update (Expire (Insert newDataStore ['k'] ['a'] 0).1 ['k'] 100 0).1
          ['k'] ['b'] 0).1 ['k'] 0 = (0, false) ∧
    ReadExpiration
        (Upsert (Expire (Insert newDataStore ['k'] ['a'] 0).1 ['k'] 100 0).1
          ['k'] ['c']).1 ['k'] 0 = (0, false) := by
  refine ⟨?_, ?_, ?_⟩ <;> rfl

/-! ## Claim C2 -/

/-- C2 counterexample: after inserting `"a"` and calling `Truncate`, the
code's `Count` is `0` but the trie still enumerates `"a"` under the empty
query, so the claim that after `Truncate` the prefix trie is empty (and
`Find("")` enumerates no previously inserted key) is false. -/
theorem c2_counterexample_truncate_leaves_trie :
    Count (Truncate (Insert newDataStore ['a'] ['v'] 0).1) = 0 ∧
    ['a'] ∈ trieFind (Truncate (Insert newDataStore ['a'] ['v'] 0).1).keyIndex [] := by
  constructor
  · rfl
  · have h : trieFind (Truncate (Engine.Insert newDataStore ['a'] ['v'] 0).1).keyIndex [] =
        [['a']] := rfl
    rw [h]
    exact List.mem_singleton.mpr rfl

/-- C2 (amended): `Truncate` empties the key-to-Entry map — `Count`
returns `0`, every key reads absent, and `KeysBy` filters everything out —
but the prefix trie is left entirely unchanged, so its `Find("")` may
still enumerate previously inserted keys and invariant I1 is not
re-established. -/
theorem c2_truncate_empties_map_but_not_trie
    (s : DataStore) (p k : Str) (now : Nat) :
    Count (Truncate s) = 0 ∧
    (Truncate s).keyIndex = s.keyIndex ∧
    Read (Truncate s) k now = ([], 0, false) ∧
    KeysBy (Truncate s) p now = [] := by
  refine ⟨rfl, rfl, Read_empty_map _ rfl k now, ?_⟩
  have hp : ∀ x, Present (Truncate s) x now = false := by
    intro x
    simp [Present, Read_empty_map (Truncate s) rfl x now]
  have hfil : (trieFind (Truncate s).keyIndex p).filter
      (fun x => Present (Truncate s) x now) = [] := by
    apply List.filter_eq_nil_iff.mpr
    intro a _
    simp [hp a]
  simpa [KeysBy] using hfil

/-! ## Claim C3 -/

/-- C3 counterexample: insert `"k"`, give it expiration 5; at time 10 the
key is expired but not yet swept (`KeysBy` sees no live key), yet
`DeleteBy("")` returns `1` — it counts the expired, unswept key, whereas
the claim says the return value counts only live keys removed (which would
be `0`). -/
theorem c3_counterexample_deleteBy_counts_expired :
    KeysBy ((Expire (Insert newDataStore ['k'] ['a'] 0).1 ['k'] 5 0).1) [] 10 = [] ∧
    (DeleteBy ((Expire (Insert newDataStore ['k'] ['a'] 0).1 ['k'] 5 0).1) []).2 = 1 := by
  exact ⟨rfl, rfl⟩

/-- C3 (amended): for every store state and prefix `p`, `DeleteBy(p)`
removes from the map exactly the keys enumerated by the trie under `p`
(live or expired-but-unswept), replaces the index by `DeleteAll(p)`, and
returns the number of trie-enumerated keys — a count that includes keys
whose Entry had already expired but had not yet been swept. -/
theorem c3_deleteBy_removes_trie_enumerated_keys
    (s : DataStore) (p k : Str) :
    (DeleteBy s p).2 = (trieFind s.keyIndex p).length ∧
    (DeleteBy s p).1.keyIndex = (trieDeleteAll s.keyIndex p).1 ∧
    mapLookup (DeleteBy s p).1.inMemoryStore k =
      (if k ∈ trieFind s.keyIndex p then none else mapLookup s.inMemoryStore k) := by
  refine ⟨rfl, rfl, ?_⟩
  simpa [DeleteBy] using mapLookup_removeAll (trieFind s.keyIndex p) s.inMemoryStore k

/-! ## Claim C5 -/

namespace Wire

theorem getLE32_mod (n : Nat) :
    n % 256 + 256 * (n / 256 % 256) + 65536 * (n / 65536 % 256) +
      16777216 * (n / 16777216 % 256) = n % 4294967296 := by
  omega

theorem lengthField_putLE32 (n : Nat) (rest : List Nat) :
    lengthField (putLE32 n ++ rest) = n % 2 ^ 32 := by
  simp only [putLE32, lengthField, List.cons_append, List.nil_append, List.getD,
    List.getElem?_cons_zero, List.getElem?_cons_succ, Option.getD_some, getLE32]
  have := getLE32_mod n
  simpa [pow_succ] using this

theorem argsEnc_cons (p : List Nat) (ps : List (List Nat)) :
    argsEnc (p :: ps) =
      sepByte :: putLE32 p.length ++ sepByte :: p ++ argsEnc ps := by
  simp [argsEnc]

/-- The total length of an encoded frame. -/
theorem encodeMessage_length (cmd : List Nat) (params : List (List Nat)) :
    (encodeMessage cmd params).length = 5 + cmd.length + (argsEnc params).length := by
  simp [encodeMessage, putLE32]
  omega

theorem getD_append_len (h l : List Nat) (i d : Nat) :
    (h ++ l).getD (h.length + i) d = l.getD i d := by
  induction h with
  | nil => simp
  | cons a h ih => simpa [Nat.succ_add] using ih

theorem drop_append_len (h l : List Nat) (i : Nat) :
    (h ++ l).drop (h.length + i) = l.drop i := by
  induction h with
  | nil => simp
  | cons a h ih => simp [Nat.succ_add]

theorem drop_append_self (h l : List Nat) : (h ++ l).drop h.length = l := by
  simp

/-- `takeWhile (≠ separator)` over a separator-free command followed by
either nothing or a separator-headed tail returns exactly the command. -/
theorem takeWhile_cmd (cmd : List Nat) (hc : sepByte ∉ cmd) (t : List Nat)
    (ht : t = [] ∨ ∃ u, t = sepByte :: u) :
    (cmd ++ t).takeWhile (fun b => b ≠ sepByte) = cmd := by
  induction cmd with
  | nil =>
      rcases ht with h | ⟨u, h⟩ <;> subst h
      · rfl
      · simp [List.takeWhile]
  | cons c cmd ih =>
      have hcne : c ≠ sepByte := fun h => hc (h ▸ List.mem_cons_self c cmd)
      have hrest : sepByte ∉ cmd := fun h => hc (List.mem_cons_of_mem c h)
      rw [List.cons_append, List.takeWhile_cons_of_pos (by simpa using hcne), ih hrest]

theorem commandSet_no_sep : ∀ c ∈ commandSet, sepByte ∉ c := by decide

/-- `DecipherCommand` recovers the command from any frame produced by
`EncodeMessage` with a valid command token. -/
theorem decipherCommand_encodeMessage (cmd : List Nat) (params : List (List Nat))
    (hcmd : cmd ∈ commandSet) :
    decipherCommand (encodeMessage cmd params) = some cmd := by
  have hdrop : (encodeMessage cmd params).drop 5 = cmd ++ argsEnc params := by
    simp [encodeMessage, putLE32]
  have htail : argsEnc params = [] ∨ ∃ u, argsEnc params = sepByte :: u := by
    cases params with
    | nil => exact Or.inl rfl
    | cons p ps =>
        exact Or.inr ⟨putLE32 p.length ++ sepByte :: p ++ argsEnc ps,
          by simp [argsEnc_cons]⟩
  have htake := takeWhile_cmd cmd (commandSet_no_sep cmd hcmd) (argsEnc params) htail
  have hunf : decipherCommand (encodeMessage cmd params) =
      if ((encodeMessage cmd params).drop 5).takeWhile (fun b => b ≠ sepByte) ∈
          commandSet then
        some (((encodeMessage cmd params).drop 5).takeWhile (fun b => b ≠ sepByte))
      else none := rfl
  rw [hunf, hdrop, htake, if_pos hcmd]

/-- The argument loop inverts `argsEnc` when placed after any prefix, as
long as every argument length fits in a u32. -/
theorem decodeArgs_argsEnc (params : List (List Nat)) :
    ∀ head : List Nat, (∀ p ∈ params, p.length < 2 ^ 32) →
      decodeArgs (head ++ argsEnc params) head.length = some params := by
  induction params with
  | nil =>
      intro head _
      rw [decodeArgs]
      simp [argsEnc]
  | cons p ps ih =>
      intro head hps
      have hp : p.length < 2 ^ 32 := hps p (List.mem_cons_self p ps)
      have hps' : ∀ q ∈ ps, q.length < 2 ^ 32 := fun q hq => hps q (List.mem_cons_of_mem p hq)
      -- regroup the frame so that the processed part is a single prefix
      have hmsg : head ++ argsEnc (p :: ps) =
          (head ++ sepByte :: putLE32 p.length ++ [sepByte]) ++ (p ++ argsEnc ps) := by
        simp [argsEnc_cons]
      rw [decodeArgs]
      have hlen : (head ++ argsEnc (p :: ps)).length =
          head.length + 6 + p.length + (argsEnc ps).length := by
        simp [argsEnc_cons, putLE32]
        omega
      have hguard : head.length < (head ++ argsEnc (p :: ps)).length ∧
          (head ++ argsEnc (p :: ps)).getD head.length 0 = sepByte := by
        constructor
        · omega
        · have := getD_append_len head (argsEnc (p :: ps)) 0 0
          simpa [argsEnc_cons] using this
      rw [dif_pos hguard]
      have h5 : ¬(head.length + 5 > (head ++ argsEnc (p :: ps)).length) := by omega
      rw [if_neg h5]
      -- the four length bytes
      have hb : ∀ i : Nat,
          (head ++ argsEnc (p :: ps)).getD (head.length + i) 0 =
            (argsEnc (p :: ps)).getD i 0 := fun i => getD_append_len _ _ i 0
      have hsize :
          getLE32 ((head ++ argsEnc (p :: ps)).getD (head.length + 1) 0)
            ((head ++ argsEnc (p :: ps)).getD (head.length + 2) 0)
            ((head ++ argsEnc (p :: ps)).getD (head.length + 3) 0)
            ((head ++ argsEnc (p :: ps)).getD (head.length + 4) 0) = p.length := by
        rw [hb 1, hb 2, hb 3, hb 4]
        have h1 : (argsEnc (p :: ps)).getD 1 0 = p.length % 256 := by
          simp [argsEnc_cons, putLE32]
        have h2 : (argsEnc (p :: ps)).getD 2 0 = p.length / 256 % 256 := by
          simp [argsEnc_cons, putLE32]
        have h3 : (argsEnc (p :: ps)).getD 3 0 = p.length / 256 ^ 2 % 256 := by
          simp [argsEnc_cons, putLE32]
        have h4 : (argsEnc (p :: ps)).getD 4 0 = p.length / 256 ^ 3 % 256 := by
          simp [argsEnc_cons, putLE32]
        rw [h1, h2, h3, h4]
        have := getLE32_mod p.length
        have hmod : p.length % 4294967296 = p.length := Nat.mod_eq_of_lt (by
          have : (2 : Nat) ^ 32 = 4294967296 := by norm_num
          omega)
        simp only [getLE32]
        simp only [show (256 : Nat) ^ 2 = 65536 by norm_num,
          show (256 : Nat) ^ 3 = 16777216 by norm_num]
        omega
      rw [hsize]
      have hend : ¬(head.length + 6 + p.length > (head ++ argsEnc (p :: ps)).length) := by
        omega
      rw [if_neg hend]
      -- the recursive call and the extracted slice
      have hhead6 : (head ++ sepByte :: putLE32 p.length ++ [sepByte]).length =
          head.length + 6 := by
        simp [putLE32]
      have hrec : decodeArgs (head ++ argsEnc (p :: ps)) (head.length + 6 + p.length) =
          some ps := by
        have := ih ((head ++ sepByte :: putLE32 p.length ++ [sepByte]) ++ p) hps'
        rw [hmsg]
        have hl : ((head ++ sepByte :: putLE32 p.length ++ [sepByte]) ++ p).length =
            head.length + 6 + p.length := by simp [putLE32]; omega
        rw [← hl]
        simpa [List.append_assoc] using this
      rw [hrec]
      have hslice : ((head ++ argsEnc (p :: ps)).drop (head.length + 6)).take p.length
          = p := by
        rw [hmsg, ← hhead6, drop_append_self]
        simp [List.take_left]
      simp only [hslice]

/-- `decodeCommand` recovers the argument list from any frame produced by
`EncodeMessage`, as long as every argument length fits in a u32. -/
theorem decodeCommand_encodeMessage (cmd : List Nat) (params : List (List Nat))
    (hps : ∀ p ∈ params, p.length < 2 ^ 32) :
    decodeCommand cmd (encodeMessage cmd params) = some params := by
  have hmsg : encodeMessage cmd params =
      (putLE32 ((sepByte :: cmd ++ argsEnc params).length + 4) ++ sepByte :: cmd) ++
        argsEnc params := by
    simp [encodeMessage]
  have hlen : (putLE32 ((sepByte :: cmd ++ argsEnc params).length + 4) ++
      sepByte :: cmd).length = 5 + cmd.length := by
    simp [putLE32]
    omega
  rw [decodeCommand, hmsg, ← hlen, decodeArgs_argsEnc params _ hps]

end Wire

/-- The length field and total length of a single-argument `READ` frame,
for an arbitrary argument. -/
theorem encodeMessage_read_single (arg : List Nat) :
    Wire.lengthField (Wire.encodeMessage (Wire.ascii "READ") [arg]) =
      (arg.length + 15) % 2 ^ 32 ∧
    (Wire.encodeMessage (Wire.ascii "READ") [arg]).length = arg.length + 15 := by
  have hmsg : Wire.encodeMessage (Wire.ascii "READ") [arg] =
      Wire.putLE32 ((Wire.sepByte :: Wire.ascii "READ" ++ Wire.argsEnc [arg]).length + 4)
        ++ (Wire.sepByte :: Wire.ascii "READ" ++ Wire.argsEnc [arg]) := by
    simp [Wire.encodeMessage]
  have hbody : (Wire.sepByte :: Wire.ascii "READ" ++ Wire.argsEnc [arg]).length =
      arg.length + 11 := by
    simp [Wire.argsEnc, Wire.putLE32, Wire.ascii]
  constructor
  · rw [hmsg, Wire.lengthField_putLE32, hbody]
  · rw [hmsg, List.length_append, hbody]
    simp [Wire.putLE32]
    omega

/-- C5 counterexample: `EncodeMessage` truncates lengths to `uint32`, so
for an argument of `2^32` bytes the embedded length field is `15` while
the frame itself is `2^32 + 15` bytes long — the claim's length-field
property (and with it the round-trip for arbitrary argument lists) fails. -/
theorem c5_counterexample_length_field_overflow :
    Wire.lengthField (Wire.encodeMessage (Wire.ascii "READ")
        [List.replicate (2 ^ 32) 0]) = 15 ∧
    (Wire.encodeMessage (Wire.ascii "READ") [List.replicate (2 ^ 32) 0]).length =
      2 ^ 32 + 15 := by
  obtain ⟨h1, h2⟩ := encodeMessage_read_single (List.replicate (2 ^ 32) 0)
  rw [List.length_replicate] at h1 h2
  exact ⟨h1.trans (by omega), h2.trans (by omega)⟩

/-- C5 (amended): for every command token in the protocol's command set
and every argument list in which each argument is shorter than `2^32`
bytes, decoding the frame produced by `EncodeMessage` yields back exactly
that command (via `DecipherCommand`) and exactly that argument list (via
`decodeCommand`); and whenever the total frame also fits in `2^32` bytes,
the little-endian u32 length field in its first four bytes equals the
total byte length of the frame.  The round-trip conclusions hold for
every per-argument-bounded list; only the length-field equality needs the
total frame bound. -/
theorem c5_wire_roundtrip (cmd : List Nat) (params : List (List Nat))
    (hcmd : cmd ∈ Wire.commandSet)
    (hps : ∀ p ∈ params, p.length < 2 ^ 32) :
    Wire.decipherCommand (Wire.encodeMessage cmd params) = some cmd ∧
    Wire.decodeCommand cmd (Wire.encodeMessage cmd params) = some params ∧
    ((Wire.encodeMessage cmd params).length < 2 ^ 32 →
      Wire.lengthField (Wire.encodeMessage cmd params) =
        (Wire.encodeMessage cmd params).length) := by
  refine ⟨Wire.decipherCommand_encodeMessage cmd params hcmd,
    Wire.decodeCommand_encodeMessage cmd params hps, ?_⟩
  intro hframe
  have hmsg : Wire.encodeMessage cmd params =
      Wire.putLE32 ((Wire.sepByte :: cmd ++ Wire.argsEnc params).length + 4) ++
        (Wire.sepByte :: cmd ++ Wire.argsEnc params) := by
    simp [Wire.encodeMessage]
  have hlen : (Wire.encodeMessage cmd params).length =
      (Wire.sepByte :: cmd ++ Wire.argsEnc params).length + 4 := by
    rw [hmsg]
    simp [Wire.putLE32]
  rw [hmsg, Wire.lengthField_putLE32, ← hmsg]
  rw [← hlen]
  exact Nat.mod_eq_of_lt hframe

/-- C5 witness: instantiation of `c5_wire_roundtrip` on the `READ` command
with the single argument `"key"` (bytes `107 101 121`), including the
length-field equality for this frame. -/
theorem c5_wire_roundtrip_witness :
    Wire.ascii "READ" ∈ Wire.commandSet ∧
    Wire.decipherCommand (Wire.encodeMessage (Wire.ascii "READ") [[107, 101, 121]]) =
      some (Wire.ascii "READ") ∧
    Wire.decodeCommand (Wire.ascii "READ")
      (Wire.encodeMessage (Wire.ascii "READ") [[107, 101, 121]]) =
        some [[107, 101, 121]] ∧
    Wire.lengthField (Wire.encodeMessage (Wire.ascii "READ") [[107, 101, 121]]) =
      (Wire.encodeMessage (Wire.ascii "READ") [[107, 101, 121]]).length :=
  ⟨by decide,
   (c5_wire_roundtrip (Wire.ascii "READ") [[107, 101, 121]] (by decide) (by decide)).1,
   (c5_wire_roundtrip (Wire.ascii "READ") [[107, 101, 121]] (by decide)
     (by decide)).2.1,
   (c5_wire_roundtrip (Wire.ascii "READ") [[107, 101, 121]] (by decide)
     (by decide)).2.2 (by decide)⟩

/-! ## Claim C6 -/

/-- C6: the claim states that after any `Add`/`Delete`/`DeleteAll`
sequence no internal chain without key-bearing descendants survives
(`deleteKey`'s documentation: parent nodes that are not keys and have no
other children are deleted as well).  Evaluated at the failing input
`Add "a:b"` then `Delete "a:b"`: the delete reports success, yet the
intermediate node `"a"` survives with `isKey = false` and an allocated,
empty child map — Go's `delete` leaves the map non-nil, so the
`leaves == nil` prune check never fires and the orphaned ancestor chain is
kept. -/
theorem c6_delete_leaves_orphan_ancestor :
    (trieDelete (trieAdd trieNew ['a', ':', 'b']) ['a', ':', 'b']).2 = true ∧
    lookupChild
        (childrenOf
          (trieDelete (trieAdd trieNew ['a', ':', 'b']) ['a', ':', 'b']).1.root.leaves)
        ['a'] = some (.mk ['a'] false (.mkMap .nil)) ∧
    noOrphanNode
        (trieDelete (trieAdd trieNew ['a', ':', 'b']) ['a', ':', 'b']).1.root = false := by
  refine ⟨rfl, rfl, rfl⟩

/-! ## Claim C7 -/

/-- C7 counterexample: a key with expiration `t = 5` read at wall-clock
time exactly `t` is still reported present with its value — the code uses
the strict `expiration.Before(now)` — whereas the claim says a read at
`now = t` already reports the key absent. -/
theorem c7_counterexample_read_at_exact_expiration :
    Read ((Expire (Insert newDataStore ['k'] ['v'] 0).1 ['k'] 5 0).1) ['k'] 5 =
      (['v'], 5, true) := by
  rfl

/-- C7 (amended): for every key whose Entry carries an expiration `t`, any
`Read` performed at wall-clock time strictly greater than `t` reports the
key absent and returns `("", zero time, false)`; at `now = t` exactly the
key is still served. -/
theorem c7_read_after_expiration_absent
    (s : DataStore) (k : Str) (now : Nat) (d : dataNode)
    (hd : mapLookup s.inMemoryStore k = some d)
    (hexp : d.hasExpiration = true) (hlt : d.expiration < now) :
    Read s k now = ([], 0, false) := by
  simp [Read, hd, hexp, hlt]

/-- C7 witness: concrete instantiation of `c7_read_after_expiration_absent`
at expiration 5 and read time 6. -/
theorem c7_read_after_expiration_absent_witness :
    Read ((Expire (Insert newDataStore ['k'] ['v'] 0).1 ['k'] 5 0).1) ['k'] 6 =
      ([], 0, false) :=
  c7_read_after_expiration_absent _ ['k'] 6 ⟨['v'], true, 5⟩ rfl rfl (by decide)

/-! ## Claim C8 -/

/-- C8: for every key that is not present (absent, or its previous Entry
already expired at the time of the call), a successful `Insert(k, v)` and
likewise `Upsert(k, v)` store an Entry with no expiration, so
`ReadExpiration` at any later time returns `(zero time, false)` regardless
of any residual expiration the previous Entry carried. -/
theorem c8_create_clears_expiration
    (s : DataStore) (k v : Str) (now now2 : Nat)
    (h : Present s k now = false) :
    (Insert s k v now).2 = (v, true) ∧
    ReadExpiration (Insert s k v now).1 k now2 = (0, false) ∧
    ReadExpiration (Upsert s k v).1 k now2 = (0, false) := by
  have hread : (Read s k now).2.2 = false := h
  refine ⟨?_, ?_, ?_⟩
  · simp [Engine.Insert, hread]
  · simp [Engine.Insert, hread, Engine.ReadExpiration, mapLookup_mapInsert_self,
      zeroDataNode]
  · simp [Engine.Upsert, Engine.ReadExpiration, mapLookup_mapInsert_self, zeroDataNode]

/-- C8 witness: instantiation of `c8_create_clears_expiration` on a store
holding an expired Entry for `"k"` (expiration 3, current time 10) with a
residual expiration tombstone. -/
theorem c8_create_clears_expiration_witness :
    Present ((Expire (Insert newDataStore ['k'] ['a'] 0).1 ['k'] 3 0).1) ['k'] 10 = false ∧
    ReadExpiration
        (Insert ((Expire (Insert newDataStore ['k'] ['a'] 0).1 ['k'] 3 0).1)
          ['k'] ['b'] 10).1 ['k'] 10 = (0, false) :=
  ⟨by rfl,
   (c8_create_clears_expiration _ ['k'] ['b'] 10 10 (by rfl)).2.1⟩

/-! ## Claim C9 -/

/-- C9: `Insert` on a key that is present and unexpired (stored value
`v0`) returns the existing value with `false` and leaves the store state —
map, expiration metadata and trie — exactly unchanged.  (The asynchronous
`cleanupExpirations` goroutine every mutator launches is modelled as the
separate transition `cleanupExpirations` and may run concurrently; the
`Insert` call itself performs no mutation.) -/
theorem c9_insert_collision_no_mutation
    (s : DataStore) (k v1 : Str) (now : Nat) (d : dataNode)
    (hd : mapLookup s.inMemoryStore k = some d)
    (hlive : ¬(d.hasExpiration = true ∧ d.expiration < now)) :
    Insert s k v1 now = (s, d.value, false) := by
  simp [Engine.Insert, Engine.Read, hd, hlive]

/-- C9 witness: instantiation of `c9_insert_collision_no_mutation` on a
store holding a live entry `"k" → "a"`. -/
theorem c9_insert_collision_no_mutation_witness :
    Insert (Insert newDataStore ['k'] ['a'] 0).1 ['k'] ['b'] 0 =
      ((Insert newDataStore ['k'] ['a'] 0).1, ['a'], false) :=
  c9_insert_collision_no_mutation _ ['k'] ['b'] 0 ⟨['a'], false, 0⟩ rfl (by simp)

/-! ## Lemmas for the trie characterization (claim C4) -/

namespace Engine

theorem TrieNode.val_mk (v : Str) (k : Bool) (lv : NodeMap) :
    (TrieNode.mk v k lv).value = v := rfl

theorem addGo_value : ∀ (cs : List Str) (n : TrieNode) (pv : Option Str),
    (addGo n cs pv).value = n.value
  | [], n, pv => rfl
  | c :: rest, n, pv => by
      rw [addGo]
      cases lookupChild (childrenOf n.leaves) (mkAcc pv c) <;> rfl

theorem delKey_value (n : TrieNode) (key : Str) :
    (delKey n key).2.2.value = n.value := by
  cases n with
  | mk v k lv =>
      rw [delKey.eq_def]
      by_cases h : v = key
      · simp [h]
      · cases lv <;> simp [h, TrieNode.value]

theorem setKeyFalse_value (n : TrieNode) : (setKeyFalse n).value = n.value := by
  cases n; rfl

theorem lookupChild_some : ∀ (l : NodeList) (s : Str) (c : TrieNode),
    lookupChild l s = some c → c.value = s ∧ inList c l
  | .nil, s, c, h => by simp [lookupChild] at h
  | .cons c0 rest, s, c, h => by
      rw [lookupChild] at h
      split at h
      · cases h
        exact ⟨by assumption, Or.inl rfl⟩
      · obtain ⟨h1, h2⟩ := lookupChild_some rest s c h
        exact ⟨h1, Or.inr h2⟩

theorem lookupChild_none : ∀ (l : NodeList) (s : Str),
    lookupChild l s = none → ∀ c, inList c l → c.value ≠ s
  | .nil, s, _, c, hc => absurd hc (by simp [inList])
  | .cons c0 rest, s, h, c, hc => by
      rw [lookupChild] at h
      split at h
      · exact absurd h (by simp)
      · rcases hc with rfl | hc
        · assumption
        · exact lookupChild_none rest s h c hc

theorem inList_keyInList : ∀ (l : NodeList) (c : TrieNode) (k : Str),
    inList c l → keyIn k c → keyInList k l
  | .cons c0 rest, c, k, hc, hk => by
      rcases hc with rfl | hc
      · exact Or.inl hk
      · exact Or.inr (inList_keyInList rest c k hc hk)

theorem keyInList_exists : ∀ (l : NodeList) (k : Str),
    keyInList k l → ∃ c, inList c l ∧ keyIn k c
  | .cons c0 rest, k, hk => by
      rcases hk with hk | hk
      · exact ⟨c0, Or.inl rfl, hk⟩
      · obtain ⟨c, hc, h⟩ := keyInList_exists rest k hk
        exact ⟨c, Or.inr hc, h⟩

theorem listInv_nodeInv : ∀ (pv : Option Str) (l : NodeList) (c : TrieNode),
    listInv pv l → inList c l → nodeInv c ∧ childShape pv c.value
  | pv, .cons c0 rest, c, hinv, hc => by
      obtain ⟨hshape, hinv0, _, hrest⟩ := hinv
      rcases hc with rfl | hc
      · exact ⟨hinv0, hshape⟩
      · exact listInv_nodeInv pv rest c hrest hc

theorem listInv_lookup_self : ∀ (pv : Option Str) (l : NodeList) (c : TrieNode),
    listInv pv l → inList c l → lookupChild l c.value = some c
  | pv, .cons c0 rest, c, hinv, hc => by
      obtain ⟨_, _, hdup, hrest⟩ := hinv
      rcases hc with rfl | hc
      · simp [lookupChild]
      · have hrec := listInv_lookup_self pv rest c hrest hc
        rw [lookupChild]
        split
        · rename_i heq
          rw [heq, hrec] at hdup
          exact absurd hdup (by simp)
        · exact hrec

theorem seg_self (a : Str) (ha : ∀ x ∈ a, x ≠ ':') :
    a.takeWhile (fun x => x ≠ ':') = a := by
  induction a with
  | nil => rfl
  | cons c a ih =>
      have hc : c ≠ ':' := ha c (List.mem_cons_self c a)
      rw [List.takeWhile_cons_of_pos (by simpa using hc),
        ih (fun x hx => ha x (List.mem_cons_of_mem c hx))]

theorem seg_ext (a r : Str) (ha : ∀ x ∈ a, x ≠ ':') :
    (a ++ ':' :: r).takeWhile (fun x => x ≠ ':') = a := by
  induction a with
  | nil => simp [List.takeWhile_cons]
  | cons c a ih =>
      have hc : c ≠ ':' := ha c (List.mem_cons_self c a)
      rw [List.cons_append, List.takeWhile_cons_of_pos (by simpa using hc),
        ih (fun x hx => ha x (List.mem_cons_of_mem c hx))]

/-- Two colon-free strings that are both "the part of `k` before the first
separator" are equal. -/
theorem colonFree_prefix_eq (a b k : Str)
    (ha : ∀ x ∈ a, x ≠ ':') (hb : ∀ x ∈ b, x ≠ ':')
    (hka : k = a ∨ ∃ r, k = a ++ ':' :: r)
    (hkb : k = b ∨ ∃ r, k = b ++ ':' :: r) : a = b := by
  have h1 : k.takeWhile (fun x => x ≠ ':') = a := by
    rcases hka with h | ⟨r, h⟩
    · rw [h]; exact seg_self a ha
    · rw [h]; exact seg_ext a r ha
  have h2 : k.takeWhile (fun x => x ≠ ':') = b := by
    rcases hkb with h | ⟨r, h⟩
    · rw [h]; exact seg_self b hb
    · rw [h]; exact seg_ext b r hb
  rw [← h1, h2]

/-- A key at or below the node for `a ++ joinTail cs` is at or below the
node for `a`. -/
theorem ext_weaken (a : Str) (cs : List Str) (k : Str)
    (h : k = a ++ joinTail cs ∨ ∃ r, k = a ++ joinTail cs ++ ':' :: r) :
    k = a ∨ ∃ r, k = a ++ ':' :: r := by
  cases cs with
  | nil => simpa [joinTail] using h
  | cons c cs =>
      rcases h with h | ⟨r, h⟩
      · right
        exact ⟨c ++ joinTail cs, by simpa [joinTail] using h⟩
      · right
        refine ⟨c ++ joinTail cs ++ ':' :: r, ?_⟩
        simp only [joinTail, List.append_assoc, List.cons_append] at h ⊢
        exact h

/-- Disambiguation of a child value: if some key `k` lies at or below both
a well-shaped child value `w` and the cumulative value `mkAcc pv c`, the
two coincide. -/
theorem childShape_eq_acc (pv : Option Str) (w c k : Str)
    (hs : childShape pv w) (hc : ∀ x ∈ c, x ≠ ':')
    (hkw : k = w ∨ ∃ r, k = w ++ ':' :: r)
    (hkc : k = mkAcc pv c ∨ ∃ r, k = mkAcc pv c ++ ':' :: r) :
    w = mkAcc pv c := by
  obtain ⟨comp, hcomp, rfl⟩ := hs
  cases pv with
  | none =>
      simp only [mkAcc] at hkw hkc ⊢
      exact colonFree_prefix_eq comp c k hcomp hc hkw hkc
  | some v =>
      simp only [mkAcc] at hkw hkc ⊢
      have hx : ∃ X, k = v ++ ':' :: X ∧ (X = comp ∨ ∃ r, X = comp ++ ':' :: r) := by
        rcases hkw with h | ⟨r, h⟩
        · exact ⟨comp, h, Or.inl rfl⟩
        · refine ⟨comp ++ ':' :: r, ?_, Or.inr ⟨r, rfl⟩⟩
          simpa [List.append_assoc] using h
      have hy : ∃ Y, k = v ++ ':' :: Y ∧ (Y = c ∨ ∃ r, Y = c ++ ':' :: r) := by
        rcases hkc with h | ⟨r, h⟩
        · exact ⟨c, h, Or.inl rfl⟩
        · refine ⟨c ++ ':' :: r, ?_, Or.inr ⟨r, rfl⟩⟩
          simpa [List.append_assoc] using h
      obtain ⟨X, hXk, hX⟩ := hx
      obtain ⟨Y, hYk, hY⟩ := hy
      have hXY : X = Y := by
        have h := hXk.symm.trans hYk
        have h2 := List.append_cancel_left h
        exact (List.cons.injEq _ _ _ _ ▸ h2).2
      subst hXY
      rw [colonFree_prefix_eq comp c X hcomp hc hX hY]

mutual
/-- Every key in the subtree of a well-formed node sits at or strictly
below the node's own cumulative value. -/
theorem keyIn_shape : ∀ (k : Str) (n : TrieNode), nodeInv n → keyIn k n →
    k = n.value ∨ ∃ r, k = n.value ++ ':' :: r
  | k, .mk v key .nilMap, _, hk => by
      simp only [keyIn, keyInMap] at hk
      rcases hk with ⟨_, h⟩ | hk
      · exact Or.inl h.symm
      · exact absurd hk (by simp)
  | k, .mk v key (.mkMap l), hinv, hk => by
      simp only [keyIn, keyInMap] at hk
      rcases hk with ⟨_, h⟩ | hk
      · exact Or.inl h.symm
      · have hinv' : listInv (some v) l := hinv
        obtain ⟨r, hr⟩ := keyInList_shape k v l hinv' hk
        exact Or.inr ⟨r, hr⟩

theorem keyInList_shape : ∀ (k v : Str) (l : NodeList), listInv (some v) l →
    keyInList k l → ∃ r, k = v ++ ':' :: r
  | k, v, .cons c rest, hinv, hk => by
      obtain ⟨hshape, hinvc, _, hrest⟩ := hinv
      simp only [keyInList] at hk
      rcases hk with hk | hk
      · obtain ⟨comp, _, hval⟩ := hshape
        rcases keyIn_shape k c hinvc hk with h | ⟨r, h⟩
        · exact ⟨comp, by rw [h, hval]; rfl⟩
        · refine ⟨comp ++ ':' :: r, ?_⟩
          rw [h, hval]
          simp [mkAcc]
      · exact keyInList_shape k v rest hrest hk
end

mutual
/-- For well-formed nodes, `findKeys` enumerates exactly the `isKey`
values of the subtree. -/
theorem findKeys_iff : ∀ (n : TrieNode), nodeInv n → ∀ k : Str,
    (k ∈ findKeys n ↔ keyIn k n)
  | .mk v key .nilMap, hinv, k => by
      have hkey : key = true := hinv
      simp [findKeys, keyIn, keyInMap, hkey, eq_comm]
  | .mk v key (.mkMap l), hinv, k => by
      have hinv' : listInv (some v) l := hinv
      have hlist := findKeysList_iff l (some v) hinv' k
      cases key <;>
        simp [findKeys, keyIn, keyInMap, hlist, eq_comm]

theorem findKeysList_iff : ∀ (l : NodeList) (pv : Option Str), listInv pv l → ∀ k : Str,
    (k ∈ findKeysList l ↔ keyInList k l)
  | .nil, _, _, k => by simp [findKeysList, keyInList]
  | .cons c rest, pv, hinv, k => by
      obtain ⟨_, hinvc, _, hrest⟩ := hinv
      simp [findKeysList, keyInList, findKeys_iff c hinvc k,
        findKeysList_iff rest pv hrest k]
end

/-- The cumulative value of the remaining query components. -/
theorem joinTail_cons_assoc (v c : Str) (cs : List Str) :
    v ++ joinTail (c :: cs) = mkAcc (some v) c ++ joinTail cs := by
  simp [joinTail, mkAcc]

/-- A key at or below `v ++ joinTail (c :: cs)` is strictly longer than
`v`, so it is not `v` itself. -/
theorem value_ne_ext (v c : Str) (cs : List Str) (k : Str)
    (hq : k = v ++ joinTail (c :: cs) ∨ ∃ r, k = v ++ joinTail (c :: cs) ++ ':' :: r) :
    k ≠ v := by
  intro hkv
  rcases hq with hq | ⟨r, hq⟩ <;>
  · rw [hkv] at hq
    have h2 := congrArg List.length hq
    simp only [joinTail, List.length_append, List.length_cons] at h2
    omega

/-- The walking loop of `Find`, characterised: starting at a well-formed
node `n` with the cumulative value equal to `n.value`, a key is enumerated
iff it is a key of `n`'s subtree sitting at or below the target cumulative
value. -/
theorem walk_mem (k : Str) : ∀ (cs : List Str) (n : TrieNode),
    nodeInv n → (∀ c ∈ cs, ∀ x ∈ c, x ≠ ':') →
    (k ∈ findKeysOpt (findLoop n cs (some n.value)) ↔
      keyIn k n ∧ (k = n.value ++ joinTail cs ∨
        ∃ r, k = n.value ++ joinTail cs ++ ':' :: r))
  | [], n, hinv, _ => by
      rw [show findLoop n [] (some n.value) = some n from rfl]
      simp only [joinTail, List.append_nil, findKeysOpt]
      constructor
      · intro hk
        have h := (findKeys_iff n hinv k).mp hk
        exact ⟨h, keyIn_shape k n hinv h⟩
      · intro h
        exact (findKeys_iff n hinv k).mpr h.1
  | c :: cs', n, hinv, hcs => by
      have hc : ∀ x ∈ c, x ≠ ':' := hcs c (List.mem_cons_self c cs')
      have hcs' : ∀ a ∈ cs', ∀ x ∈ a, x ≠ ':' :=
        fun a ha => hcs a (List.mem_cons_of_mem c ha)
      cases n with
      | mk v key lv =>
          have hval : (TrieNode.mk v key lv).value = v := rfl
          rw [hval]
          cases lv with
          | nilMap =>
              rw [show findLoop (.mk v key .nilMap) (c :: cs') (some v) = none from rfl]
              simp only [findKeysOpt, List.not_mem_nil, false_iff, not_and]
              intro hk
              simp only [keyIn, keyInMap] at hk
              rcases hk with ⟨_, hv⟩ | hf
              · intro hq
                exact value_ne_ext v c cs' k hq hv.symm
              · exact absurd hf id
          | mkMap l =>
              have hinv' : listInv (some v) l := hinv
              have hstep : findLoop (.mk v key (.mkMap l)) (c :: cs') (some v) =
                  match lookupChild l (mkAcc (some v) c) with
                  | none => none
                  | some child => findLoop child cs' (some (mkAcc (some v) c)) := by
                rw [findLoop]
                rfl
              cases hlc : lookupChild l (mkAcc (some v) c) with
              | none =>
                  rw [hstep, hlc]
                  simp only [findKeysOpt, List.not_mem_nil, false_iff, not_and]
                  intro hk hq
                  simp only [keyIn, keyInMap] at hk
                  rcases hk with ⟨_, hv⟩ | hkl
                  · exact value_ne_ext v c cs' k hq hv.symm
                  · obtain ⟨c2, hcin, hkc2⟩ := keyInList_exists l k hkl
                    obtain ⟨hinvc2, hshape⟩ := listInv_nodeInv (some v) l c2 hinv' hcin
                    have hkw := keyIn_shape k c2 hinvc2 hkc2
                    have hq' : k = mkAcc (some v) c ++ joinTail cs' ∨
                        ∃ r, k = mkAcc (some v) c ++ joinTail cs' ++ ':' :: r := by
                      rw [← joinTail_cons_assoc]
                      exact hq
                    have hkc := ext_weaken (mkAcc (some v) c) cs' k hq'
                    have := childShape_eq_acc (some v) c2.value c k hshape hc hkw hkc
                    exact lookupChild_none l (mkAcc (some v) c) hlc c2 hcin this
              | some ch =>
                  rw [hstep, hlc]
                  obtain ⟨hchv, hchin⟩ := lookupChild_some l (mkAcc (some v) c) ch hlc
                  obtain ⟨hinvch, _⟩ := listInv_nodeInv (some v) l ch hinv' hchin
                  have hih := walk_mem k cs' ch hinvch hcs'
                  rw [hchv] at hih
                  rw [hih]
                  rw [← joinTail_cons_assoc]
                  constructor
                  · intro h
                    exact ⟨Or.inr (inList_keyInList l ch k hchin h.1), h.2⟩
                  · intro h
                    obtain ⟨hk, hq⟩ := h
                    refine ⟨?_, hq⟩
                    simp only [keyIn, keyInMap] at hk
                    rcases hk with ⟨_, hv⟩ | hkl
                    · exact absurd hv.symm (value_ne_ext v c cs' k hq)
                    · obtain ⟨c2, hcin, hkc2⟩ := keyInList_exists l k hkl
                      obtain ⟨hinvc2, hshape⟩ := listInv_nodeInv (some v) l c2 hinv' hcin
                      have hkw := keyIn_shape k c2 hinvc2 hkc2
                      have hq' : k = mkAcc (some v) c ++ joinTail cs' ∨
                          ∃ r, k = mkAcc (some v) c ++ joinTail cs' ++ ':' :: r := by
                        rw [← joinTail_cons_assoc]
                        exact hq
                      have hkc := ext_weaken (mkAcc (some v) c) cs' k hq'
                      have hv2 := childShape_eq_acc (some v) c2.value c k hshape hc hkw hkc
                      have hlkp := listInv_lookup_self (some v) l c2 hinv' hcin
                      rw [hv2, hlc] at hlkp
                      cases hlkp
                      exact hkc2

/-- The membership characterisation of `Find` for any structurally
well-formed trie, relative to the key enumeration `Find("")`. -/
theorem trieFind_characterization (t : PrefixTrie) (hinv : trieInv t) (k q : Str) :
    k ∈ trieFind t q ↔
      k ∈ trieFind t [] ∧ (q = [] ∨ q = k ∨ ∃ r, k = q ++ ':' :: r) := by
  by_cases hq : q = []
  · subst hq
    simp
  · cases t with
    | mk root sep =>
        cases root with
        | mk rv rkey rlv =>
            obtain ⟨hval, hkey, hroot⟩ := hinv
            have hval' : rv = [] := hval
            have hkey' : rkey = false := hkey
            subst hval'
            subst hkey'
            cases hsp : splitColon q with
            | nil => exact absurd hsp (splitColon_ne_nil q)
            | cons c cs =>
                have hjoin : q = c ++ joinTail cs := splitColon_join q c cs hsp
                have hcf : ∀ a ∈ c :: cs, ∀ x ∈ a, x ≠ ':' := by
                  rw [← hsp]
                  exact splitColon_colonFree q
                have hc : ∀ x ∈ c, x ≠ ':' := hcf c (List.mem_cons_self c cs)
                have hcs : ∀ a ∈ cs, ∀ x ∈ a, x ≠ ':' :=
                  fun a ha => hcf a (List.mem_cons_of_mem c ha)
                rw [show trieFind ⟨.mk [] false rlv, sep⟩ q =
                    findKeysOpt (findLoop (.mk [] false rlv) (splitColon q) none) from by
                  rw [trieFind, if_neg hq], hsp]
                cases rlv with
                | nilMap =>
                    rw [show findLoop (.mk [] false .nilMap) (c :: cs) none = none
                      from rfl]
                    rw [show trieFind ⟨.mk [] false .nilMap, sep⟩ [] = [([] : Str)]
                      from rfl]
                    simp only [findKeysOpt, List.not_mem_nil, false_iff, not_and]
                    intro hk
                    have hk0 : k = [] := by simpa using hk
                    subst hk0
                    rintro (h | h | ⟨r, h⟩)
                    · exact hq h
                    · exact hq h
                    · have := congrArg List.length h
                      simp at this
                      omega
                | mkMap l =>
                    have hinv' : listInv none l := hroot
                    have hbase : ∀ x : Str,
                        (x ∈ trieFind ⟨.mk [] false (.mkMap l), sep⟩ [] ↔
                          keyInList x l) := by
                      intro x
                      rw [show trieFind ⟨.mk [] false (.mkMap l), sep⟩ [] =
                          findKeysList l from by simp [trieFind, findKeys]]
                      exact findKeysList_iff l none hinv' x
                    have hstep : findLoop (.mk [] false (.mkMap l)) (c :: cs) none =
                        match lookupChild l (mkAcc none c) with
                        | none => none
                        | some child => findLoop child cs (some (mkAcc none c)) := by
                      rw [findLoop]
                      rfl
                    have hqforms : ∀ (h : k = q ∨ ∃ r, k = q ++ ':' :: r),
                        k = mkAcc none c ∨ ∃ r, k = mkAcc none c ++ ':' :: r := by
                      intro h
                      apply ext_weaken (mkAcc none c) cs k
                      have hacc : (mkAcc none c : Str) = c := rfl
                      rw [hacc, ← hjoin]
                      exact h
                    cases hlc : lookupChild l (mkAcc none c) with
                    | none =>
                        rw [hstep, hlc]
                        simp only [findKeysOpt, List.not_mem_nil, false_iff, not_and]
                        intro hk hdisj
                        have hkl : keyInList k l := (hbase k).mp hk
                        have hkq : k = q ∨ ∃ r, k = q ++ ':' :: r := by
                          rcases hdisj with h | h | h
                          · exact absurd h hq
                          · exact Or.inl h.symm
                          · exact Or.inr h
                        obtain ⟨c2, hcin, hkc2⟩ := keyInList_exists l k hkl
                        obtain ⟨hinvc2, hshape⟩ := listInv_nodeInv none l c2 hinv' hcin
                        have hkw := keyIn_shape k c2 hinvc2 hkc2
                        have hv2 := childShape_eq_acc none c2.value c k hshape hc hkw
                          (hqforms hkq)
                        exact lookupChild_none l (mkAcc none c) hlc c2 hcin hv2
                    | some ch =>
                        rw [hstep, hlc]
                        obtain ⟨hchv, hchin⟩ := lookupChild_some l (mkAcc none c) ch hlc
                        obtain ⟨hinvch, _⟩ := listInv_nodeInv none l ch hinv' hchin
                        have hih := walk_mem k cs ch hinvch hcs
                        rw [hchv] at hih
                        have hchq : (mkAcc none c : Str) ++ joinTail cs = q := by
                          rw [hjoin]
                          rfl
                        rw [hchq] at hih
                        rw [hih]
                        constructor
                        · intro h
                          refine ⟨(hbase k).mpr (inList_keyInList l ch k hchin h.1), ?_⟩
                          rcases h.2 with h2 | h2
                          · exact Or.inr (Or.inl h2.symm)
                          · exact Or.inr (Or.inr h2)
                        · intro h
                          obtain ⟨hk, hdisj⟩ := h
                          have hkl : keyInList k l := (hbase k).mp hk
                          have hkq : k = q ∨ ∃ r, k = q ++ ':' :: r := by
                            rcases hdisj with h2 | h2 | h2
                            · exact absurd h2 hq
                            · exact Or.inl h2.symm
                            · exact Or.inr h2
                          refine ⟨?_, hkq⟩
                          obtain ⟨c2, hcin, hkc2⟩ := keyInList_exists l k hkl
                          obtain ⟨hinvc2, hshape⟩ := listInv_nodeInv none l c2 hinv' hcin
                          have hkw := keyIn_shape k c2 hinvc2 hkc2
                          have hv2 := childShape_eq_acc none c2.value c k hshape hc hkw
                            (hqforms hkq)
                          have hlkp := listInv_lookup_self none l c2 hinv' hcin
                          rw [hv2] at hlkp
                          rw [hlc] at hlkp
                          cases hlkp
                          exact hkc2

/-! ### Preservation of the structural invariant by `Add` and `Delete` -/

theorem nodeInv_preInv : ∀ n : TrieNode, nodeInv n → preInv n
  | .mk _ _ .nilMap, _ => trivial
  | .mk _ _ (.mkMap _), h => h

theorem lookupChild_appendChild_none : ∀ (l : NodeList) (c : TrieNode) (s : Str),
    lookupChild l s = none → c.value ≠ s → lookupChild (appendChild l c) s = none
  | .nil, c, s, _, hcs => by simp [appendChild, lookupChild, hcs]
  | .cons c0 rest, c, s, h, hcs => by
      rw [lookupChild] at h
      split at h
      · exact absurd h (by simp)
      · rw [appendChild, lookupChild]
        rw [if_neg (by assumption)]
        exact lookupChild_appendChild_none rest c s h hcs

theorem listInv_appendChild : ∀ (pv : Option Str) (l : NodeList) (c : TrieNode),
    listInv pv l → nodeInv c → childShape pv c.value →
    lookupChild l c.value = none → listInv pv (appendChild l c)
  | pv, .nil, c, _, hc, hs, _ => ⟨hs, hc, rfl, trivial⟩
  | pv, .cons c0 rest, c, hinv, hc, hs, hl => by
      obtain ⟨hshape0, hinv0, hdup0, hrest⟩ := hinv
      rw [lookupChild] at hl
      split at hl
      · exact absurd hl (by simp)
      · rename_i hne
        exact ⟨hshape0, hinv0,
          lookupChild_appendChild_none rest c c0.value hdup0
            (fun h => hne (h ▸ rfl)), listInv_appendChild pv rest c hrest hc hs hl⟩

theorem lookupChild_replaceChild_none : ∀ (l : NodeList) (s : Str) (c2 : TrieNode)
    (x : Str), lookupChild l x = none → c2.value = s → x ≠ s →
    lookupChild (replaceChild l s c2) x = none
  | .nil, _, _, _, h, _, _ => h
  | .cons c0 rest, s, c2, x, h, hv, hxs => by
      rw [lookupChild] at h
      split at h
      · exact absurd h (by simp)
      · rename_i hne
        rw [replaceChild]
        split
        · rw [lookupChild, if_neg (fun hc : c2.value = x => hxs (hv ▸ hc).symm)]
          exact h
        · rw [lookupChild, if_neg hne]
          exact lookupChild_replaceChild_none rest s c2 x h hv hxs

theorem listInv_replaceChild : ∀ (pv : Option Str) (l : NodeList) (s : Str)
    (c2 : TrieNode), listInv pv l → nodeInv c2 → c2.value = s →
    listInv pv (replaceChild l s c2)
  | _, .nil, _, _, _, _, _ => trivial
  | pv, .cons c0 rest, s, c2, hinv, hc2, hv => by
      obtain ⟨hshape0, hinv0, hdup0, hrest⟩ := hinv
      rw [replaceChild]
      split
      · rename_i heq
        refine ⟨?_, hc2, ?_, hrest⟩
        · rw [hv, ← heq]
          exact hshape0
        · rw [hv, ← heq]
          exact hdup0
      · rename_i hne
        refine ⟨hshape0, hinv0, ?_, listInv_replaceChild pv rest s c2 hrest hc2 hv⟩
        exact lookupChild_replaceChild_none rest s c2 c0.value hdup0 hv
          (fun h => hne (h ▸ rfl))

theorem addGo_isKey_cons (n : TrieNode) (c : Str) (rest : List Str) (pv : Option Str) :
    (addGo n (c :: rest) pv).isKey = n.isKey := by
  rw [addGo]
  cases lookupChild (childrenOf n.leaves) (mkAcc pv c) <;> rfl

/-- `Add`'s walking loop keeps a well-formed subtree well-formed. -/
theorem addGo_preserve : ∀ (cs : List Str) (n : TrieNode),
    (∀ c ∈ cs, ∀ x ∈ c, x ≠ ':') → preInv n →
    nodeInv (addGo n cs (some n.value))
  | [], .mk v key .nilMap, _, _ => by
      rw [addGo]
      simp only [TrieNode.value, TrieNode.leaves]
      exact rfl
  | [], .mk v key (.mkMap _), _, hpre => by
      rw [addGo]
      simp only [TrieNode.value, TrieNode.leaves]
      exact hpre
  | c :: rest, .mk v key .nilMap, hcs, _ => by
      have hc : ∀ x ∈ c, x ≠ ':' := hcs c (List.mem_cons_self c rest)
      have hrest : ∀ a ∈ rest, ∀ x ∈ a, x ≠ ':' :=
        fun a ha => hcs a (List.mem_cons_of_mem c ha)
      rw [addGo]
      simp only [TrieNode.value, TrieNode.leaves, TrieNode.isKey, childrenOf,
        lookupChild, appendChild]
      have hchild := addGo_preserve rest (.mk (mkAcc (some v) c) false .nilMap)
        hrest trivial
      have hcv := addGo_value rest (.mk (mkAcc (some v) c) false .nilMap)
        (some (mkAcc (some v) c))
      exact ⟨⟨c, hc, hcv⟩, hchild, rfl, trivial⟩
  | c :: rest, .mk v key (.mkMap l), hcs, hpre => by
      have hc : ∀ x ∈ c, x ≠ ':' := hcs c (List.mem_cons_self c rest)
      have hrest : ∀ a ∈ rest, ∀ x ∈ a, x ≠ ':' :=
        fun a ha => hcs a (List.mem_cons_of_mem c ha)
      have hl : listInv (some v) l := hpre
      rw [addGo]
      simp only [TrieNode.value, TrieNode.leaves, TrieNode.isKey, childrenOf]
      cases hlc : lookupChild l (mkAcc (some v) c) with
      | none =>
          have hchild := addGo_preserve rest (.mk (mkAcc (some v) c) false .nilMap)
            hrest trivial
          have hcv := addGo_value rest (.mk (mkAcc (some v) c) false .nilMap)
            (some (mkAcc (some v) c))
          exact listInv_appendChild (some v) l _ hl hchild ⟨c, hc, hcv⟩
            (by rw [hcv]; exact hlc)
      | some ch =>
          obtain ⟨hchv, hchin⟩ := lookupChild_some l (mkAcc (some v) c) ch hlc
          obtain ⟨hinvch, _⟩ := listInv_nodeInv (some v) l ch hl hchin
          have hchild : nodeInv (addGo ch rest (some (mkAcc (some v) c))) := by
            rw [← hchv]
            exact addGo_preserve rest ch hrest (nodeInv_preInv ch hinvch)
          have hcv := addGo_value rest ch (some (mkAcc (some v) c))
          exact listInv_replaceChild (some v) l (mkAcc (some v) c) _ hl hchild
            (by rw [hcv, hchv])

/-- `Add` preserves the trie invariant. -/
theorem trieAdd_preserve (t : PrefixTrie) (k : Str) (hinv : trieInv t) :
    trieInv (trieAdd t k) := by
  cases t with
  | mk root sep =>
      cases root with
      | mk rv rkey rlv =>
          obtain ⟨hval, hkey, hroot⟩ := hinv
          have hval' : rv = [] := hval
          have hkey' : rkey = false := hkey
          subst hval'
          subst hkey'
          cases hsp : splitColon k with
          | nil => exact absurd hsp (splitColon_ne_nil k)
          | cons c cs =>
              have hcf : ∀ a ∈ c :: cs, ∀ x ∈ a, x ≠ ':' := by
                rw [← hsp]
                exact splitColon_colonFree k
              have hc : ∀ x ∈ c, x ≠ ':' := hcf c (List.mem_cons_self c cs)
              have hcs : ∀ a ∈ cs, ∀ x ∈ a, x ≠ ':' :=
                fun a ha => hcf a (List.mem_cons_of_mem c ha)
              rw [trieAdd, hsp]
              refine ⟨addGo_value (c :: cs) _ none, addGo_isKey_cons _ c cs none, ?_⟩
              rw [addGo]
              cases rlv with
              | nilMap =>
                  simp only [TrieNode.value, TrieNode.leaves, TrieNode.isKey,
                    childrenOf, lookupChild, appendChild]
                  have hchild := addGo_preserve cs (.mk (mkAcc none c) false .nilMap)
                    hcs trivial
                  have hcv := addGo_value cs (.mk (mkAcc none c) false .nilMap)
                    (some (mkAcc none c))
                  exact ⟨⟨c, hc, hcv⟩, hchild, rfl, trivial⟩
              | mkMap l =>
                  have hl : listInv none l := hroot
                  simp only [TrieNode.value, TrieNode.leaves, TrieNode.isKey,
                    childrenOf]
                  cases hlc : lookupChild l (mkAcc none c) with
                  | none =>
                      have hchild := addGo_preserve cs
                        (.mk (mkAcc none c) false .nilMap) hcs trivial
                      have hcv := addGo_value cs (.mk (mkAcc none c) false .nilMap)
                        (some (mkAcc none c))
                      exact listInv_appendChild none l _ hl hchild ⟨c, hc, hcv⟩
                        (by rw [hcv]; exact hlc)
                  | some ch =>
                      obtain ⟨hchv, hchin⟩ := lookupChild_some l (mkAcc none c) ch hlc
                      obtain ⟨hinvch, _⟩ := listInv_nodeInv none l ch hl hchin
                      have hchild : nodeInv (addGo ch cs (some (mkAcc none c))) := by
                        rw [← hchv]
                        exact addGo_preserve cs ch hcs (nodeInv_preInv ch hinvch)
                      have hcv := addGo_value cs ch (some (mkAcc none c))
                      exact listInv_replaceChild none l (mkAcc none c) _ hl hchild
                        (by rw [hcv, hchv])

/-- `deleteKey` at a node whose value matches returns it unchanged. -/
theorem delKey_self (v : Str) (k : Bool) (lv : NodeMap) (key : Str) (h : v = key) :
    delKey (.mk v k lv) key = (true, k, .mk v k lv) := by
  rw [delKey.eq_def]
  simp only [if_pos h]

theorem delKey_nilMap (v : Str) (k : Bool) (key : Str) (h : ¬v = key) :
    delKey (.mk v k .nilMap) key = (!k, false, .mk v k .nilMap) := by
  rw [delKey.eq_def]
  simp only [if_neg h]

theorem delKey_mkMap (v : Str) (k : Bool) (l : NodeList) (key : Str) (h : ¬v = key) :
    delKey (.mk v k (.mkMap l)) key =
      (false, (delKeyList l key).1, .mk v k (.mkMap (delKeyList l key).2)) := by
  rw [delKey.eq_def]
  simp only [if_neg h]

/-- The child list after one `deleteKey` step, by cases on the head. -/
theorem delKeyList_cons_2_matched_nil (c : TrieNode) (rest : NodeList) (key : Str)
    (h1 : (delKey c key).1 = true) (h2 : (delKey c key).2.2.leaves = .nilMap) :
    (delKeyList (.cons c rest) key).2 = (delKeyList rest key).2 := by
  rw [delKeyList.eq_def]
  simp only [h1, h2, if_true]

theorem delKeyList_cons_2_matched_keep (c : TrieNode) (rest : NodeList) (key : Str)
    (l2 : NodeList) (h1 : (delKey c key).1 = true)
    (h2 : (delKey c key).2.2.leaves = .mkMap l2) :
    (delKeyList (.cons c rest) key).2 =
      .cons (setKeyFalse (delKey c key).2.2) (delKeyList rest key).2 := by
  rw [delKeyList.eq_def]
  simp only [h1, h2, if_true]

theorem delKeyList_cons_2_unmatched (c : TrieNode) (rest : NodeList) (key : Str)
    (h1 : (delKey c key).1 = false) :
    (delKeyList (.cons c rest) key).2 =
      .cons (delKey c key).2.2 (delKeyList rest key).2 := by
  rw [delKeyList.eq_def]
  simp [h1]

theorem delKeyList_result_lookup_none : ∀ (l : NodeList) (key x : Str),
    lookupChild l x = none → lookupChild (delKeyList l key).2 x = none
  | .nil, _, _, h => h
  | .cons c rest, key, x, h => by
      rw [lookupChild] at h
      split at h
      · exact absurd h (by simp)
      · rename_i hne
        have hrec := delKeyList_result_lookup_none rest key x h
        by_cases hm : (delKey c key).1
        · cases hlv : (delKey c key).2.2.leaves with
          | nilMap =>
              rw [delKeyList_cons_2_matched_nil c rest key hm hlv]
              exact hrec
          | mkMap l2 =>
              rw [delKeyList_cons_2_matched_keep c rest key l2 hm hlv]
              rw [lookupChild,
                if_neg (by rw [setKeyFalse_value, delKey_value]; exact hne)]
              exact hrec
        · rw [delKeyList_cons_2_unmatched c rest key (by simpa using hm)]
          rw [lookupChild, if_neg (by rw [delKey_value]; exact hne)]
          exact hrec

mutual
/-- `deleteKey` keeps a well-formed subtree well-formed. -/
theorem delKey_preserve : ∀ (n : TrieNode) (key : Str),
    nodeInv n → nodeInv (delKey n key).2.2
  | .mk v k lv, key, hinv => by
      by_cases h : v = key
      · rw [delKey_self v k lv key h]
        exact hinv
      · cases lv with
        | nilMap =>
            rw [delKey_nilMap v k key h]
            exact hinv
        | mkMap l =>
            rw [delKey_mkMap v k l key h]
            exact delKeyList_preserve l (some v) key hinv

theorem delKeyList_preserve : ∀ (l : NodeList) (pv : Option Str) (key : Str),
    listInv pv l → listInv pv (delKeyList l key).2
  | .nil, _, _, _ => trivial
  | .cons c rest, pv, key, hinv => by
      obtain ⟨hshape, hinvc, hdup, hrest⟩ := hinv
      have hc2 := delKey_preserve c key hinvc
      have hcv := delKey_value c key
      have hrr := delKeyList_preserve rest pv key hrest
      by_cases hm : (delKey c key).1
      · cases hlv : (delKey c key).2.2.leaves with
        | nilMap =>
            rw [delKeyList_cons_2_matched_nil c rest key hm hlv]
            exact hrr
        | mkMap l2 =>
            rw [delKeyList_cons_2_matched_keep c rest key l2 hm hlv]
            refine ⟨?_, ?_, ?_, hrr⟩
            · rw [setKeyFalse_value, hcv]
              exact hshape
            · cases hdk : (delKey c key).2.2 with
              | mk dv dk2 dlv =>
                  rw [hdk] at hlv
                  have hlv2 : dlv = .mkMap l2 := hlv
                  subst hlv2
                  rw [hdk] at hc2
                  exact hc2
            · rw [setKeyFalse_value, hcv]
              exact delKeyList_result_lookup_none rest key c.value hdup
      · rw [delKeyList_cons_2_unmatched c rest key (by simpa using hm)]
        refine ⟨?_, hc2, ?_, hrr⟩
        · rw [hcv]
          exact hshape
        · rw [hcv]
          exact delKeyList_result_lookup_none rest key c.value hdup
end

/-- `Delete` preserves the trie invariant. -/
theorem trieDelete_preserve (t : PrefixTrie) (key : Str) (hinv : trieInv t) :
    trieInv (trieDelete t key).1 := by
  cases t with
  | mk root sep =>
      cases root with
      | mk rv rkey rlv =>
          obtain ⟨hval, hkey, hroot⟩ := hinv
          have hval' : rv = [] := hval
          have hkey' : rkey = false := hkey
          subst hval'
          subst hkey'
          rw [trieDelete]
          by_cases h : ([] : Str) = key
          · rw [delKey_self [] false rlv key h]
            exact ⟨rfl, rfl, hroot⟩
          · cases rlv with
            | nilMap =>
                rw [delKey_nilMap [] false key h]
                exact ⟨rfl, rfl, trivial⟩
            | mkMap l =>
                rw [delKey_mkMap [] false l key h]
                exact ⟨rfl, rfl, delKeyList_preserve l none key hroot⟩

theorem trieInv_trieNew : trieInv trieNew := ⟨rfl, rfl, trivial⟩

/-- Every trie reachable by `Add`/`Delete` from the empty trie satisfies
the structural invariant. -/
theorem runOps_inv (ops : List TrieOp) : trieInv (runOps ops) := by
  rw [runOps]
  suffices h : ∀ (ops2 : List TrieOp) (t : PrefixTrie), trieInv t →
      trieInv (ops2.foldl
        (fun t op =>
          match op with
          | .add k => trieAdd t k
          | .del k => (trieDelete t k).1) t) by
    exact h ops trieNew trieInv_trieNew
  intro ops2
  induction ops2 with
  | nil =>
      intro t ht
      exact ht
  | cons op ops2 ih =>
      intro t ht
      rw [List.foldl_cons]
      apply ih
      cases op with
      | add k => exact trieAdd_preserve t k ht
      | del k => exact trieDelete_preserve t k ht

end Engine

/-! ## Claim C4 -/

/-- C4 counterexample: on the empty trie — built by the empty `Add`/
`Delete` sequence — the claim says `Find("")` returns no keys, but the
code returns the one-element list containing the empty string: `findKeys`
of a node whose child map was never allocated yields the node's own value,
and the fresh root's map is nil. -/
theorem c4_counterexample_empty_trie_find :
    trieFind (runOps []) [] = [([] : Str)] ∧ trieFind (runOps []) [] ≠ [] := by
  refine ⟨rfl, ?_⟩
  intro h
  simpa using congrArg List.length (rfl.trans h :
    ([([] : Str)] : List Str) = [])

/-- C4 (amended): for every trie built by a sequence of `Add` and `Delete`
operations starting from the empty trie and all strings `k` and `q`, `k`
is a member of `Find(q)` if and only if `k` is a member of the enumeration
`Find("")` and (`q` is the empty string, or `q` equals `k`, or `k` starts
with `q` followed by the delimiter `":"`).  In particular a query whose
component path is absent, a partial component such as `"reg"`, and a
trailing-empty component such as `"country:"` match nothing that
`Find("")` does not pair them with; on the empty trie `Find("")` itself
contains the artefact `""` produced by the unallocated root child map. -/
theorem c4_find_prefix_boundedness (ops : List TrieOp) (k q : Str) :
    k ∈ trieFind (runOps ops) q ↔
      k ∈ trieFind (runOps ops) [] ∧ (q = [] ∨ q = k ∨ ∃ r, k = q ++ ':' :: r) :=
  trieFind_characterization (runOps ops) (runOps_inv ops) k q

/-! ## Claim C10 -/

/-- C10: the claim states that the error value on which `sendErrorResponse`
invokes `Error()` is non-nil on every invocation, in particular when the
write to the connection succeeds.  It is false: `writeErr.Error()` is
called unconditionally, so on a successful write (`writeErr = nil`,
modelled as `none`) the method dereferences a nil error and panics. -/
theorem c10_sendErrorResponse_nil_deref_on_success :
    (Server.sendErrorResponse (Wire.ascii "EOF") none).2 = Except.error () := by
  rfl
